import Mathlib

/-!
# Verification of the auto-merge-bot merge-eligibility engine

A shallow embedding of the decision core of `auto-merge-bot` (the GitHub
action in `src/unnamed/part_001` of the repository).  Pure helper
functions of the JavaScript source are translated one-to-one into Lean
functions; the effectful `run` entry point is modelled as a pure function
from an explicit input record (PR metadata, comment/review history, the
CODEOWNERS oracle, and the outcomes of the external merge and check-suite
calls) to an explicit result record (exit code, merge flag, final label
state).  Comment-posting side effects and the fixed sleeps, which carry no
decision content, are not modelled.  JavaScript strings become Lean
`String`s; `String.prototype.includes` / `startsWith` become explicit
substring / prefix tests on the character lists; the case-insensitive
regexes `/\/lgtm/i` and `/\/merge/i` become substring tests on the
lowercased body.
-/

namespace AutoMergeBot

/-- JavaScript `s.startsWith(pre)`: `pre` is a prefix of `s`. -/
def strStarts (s pre : String) : Bool :=
  pre.data.isPrefixOf s.data

/-- JavaScript `s.includes(pat)` (and `s.match(/pat/)` for a literal
pattern): `pat` occurs as a contiguous substring of `s`. -/
def strContains (s pat : String) : Bool :=
  s.data.tails.any (fun t => pat.data.isPrefixOf t)

/-- The idempotency marker appended to every bot-authored comment
(`ourSignature` in the source). -/
def ourSignature : String := "<!-- Message About Merging -->"

/-- The base welcome message (`ownersWillReviewMessage` in the source). -/
def ownersWillReviewMessage : String :=
  "Thanks for the PR!  :rocket:\n\n_Instructions:_ Approve using `/lgtm` and mark for automatic merge by using `/merge`.\n\n<!-- Base message -->"

/-- Character-wise ASCII lowercasing, modelling the case folding the
case-insensitive regex flag performs on the command patterns. -/
def strToLower (s : String) : String :=
  ⟨s.data.map Char.toLower⟩

/-- The case-insensitive regex `/\/lgtm/i` applied to a body. -/
def lgtmMatch (body : String) : Bool :=
  strContains (strToLower body) "/lgtm"

/-- The case-insensitive regex `/\/merge/i` applied to a body. -/
def mergeMatch (body : String) : Bool :=
  strContains (strToLower body) "/merge"

/-- The CODEOWNERS oracle: `getOwner` maps a repository-relative path to
the entries of the matching manifest rule (the `codeowners` npm package
object in the source).  The manifest-matching algorithm itself is not
under verification; it is kept abstract. -/
structure Codeowners where
  getOwner : String → List String

/-- `file.startsWith("/") ? file.slice(1) : file` — changed files arrive
with a leading slash, the manifest is queried with the relative path. -/
def relativePath (file : String) : String :=
  if strStarts file "/" then file.drop 1 else file

/-- `getFilesNotOwnedByCodeOwner(owner, files, codeowners)`: the changed
files whose owner entries do not include `owner`. -/
def getFilesNotOwnedByCodeOwner (owner : String) (files : List String)
    (codeowners : Codeowners) : List String :=
  files.filter (fun file => decide (owner ∉ codeowners.getOwner (relativePath file)))

/-- JavaScript `Set` insertion: append if not already present (insertion
order, first occurrence kept). -/
def insertUnique (acc : List String) (x : String) : List String :=
  if x ∈ acc then acc else acc ++ [x]

/-- `getCodeOwners(changedFiles, codeowners)`: the `@`-prefixed owner
entries of all changed files, deduplicated in first-seen order. -/
def getCodeOwners (changedFiles : List String) (codeowners : Codeowners) : List String :=
  (changedFiles.flatMap (fun file =>
    (codeowners.getOwner (relativePath file)).filter (fun o => strStarts o "@"))).foldl
    insertUnique []

/-- `isCommentValid(body, author, regex, owners, pr, extra_validation)`:
the shared validity predicate for approval and merge-request signals. -/
def isCommentValid (body author : String) (cmdMatch : String → Bool)
    (owners : List String) (prAuthor : String) (extraValidation : Bool) : Bool :=
  !(strContains body ourSignature) &&
  (cmdMatch body || extraValidation) &&
  (owners.length == 0 || decide (("@" ++ author) ∈ owners)) &&
  author != prAuthor

/-- An issue comment as consumed by the engine (`comment.user.login`,
`comment.body`). -/
structure Comment where
  userLogin : String
  body : String
deriving DecidableEq

/-- A pull-request review as consumed by the engine (`review.user.login`,
`review.body`, `review.state`). -/
structure Review where
  userLogin : String
  body : String
  state : String
deriving DecidableEq

/-- `getApprovers(octokit, repoDeets, pr, owners)`: logins of all valid
`/lgtm` comments, then of all valid approving reviews (a review with
state `APPROVED` passes the command check via `extra_validation`). -/
def getApprovers (comments : List Comment) (reviews : List Review)
    (owners : List String) (prAuthor : String) : List String :=
  (comments.filter (fun c =>
      isCommentValid c.body c.userLogin lgtmMatch owners prAuthor false)).map Comment.userLogin
  ++ (reviews.filter (fun r =>
      isCommentValid r.body r.userLogin lgtmMatch owners prAuthor
        (r.state == "APPROVED"))).map Review.userLogin

/-- `hasMergeCommand(octokit, repoDeets, pr, owners)`: some comment or
review is a valid `/merge` command. -/
def hasMergeCommand (comments : List Comment) (reviews : List Review)
    (owners : List String) (prAuthor : String) : Bool :=
  comments.any (fun c =>
    isCommentValid c.body c.userLogin mergeMatch owners prAuthor false) ||
  reviews.any (fun r =>
    isCommentValid r.body r.userLogin mergeMatch owners prAuthor false)

/-- The set-reduction core of `isApproved` (source lines 354–366): starting
from the changed files, each approver's owned files are filtered out, then
the PR author's owned files. -/
def unapprovedFilesAfter (approvers : List String) (prAuthor : String)
    (codeowners : Codeowners) (changedFiles : List String) : List String :=
  getFilesNotOwnedByCodeOwner ("@" ++ prAuthor)
    (approvers.foldl
      (fun acc approver => getFilesNotOwnedByCodeOwner ("@" ++ approver) acc codeowners)
      changedFiles)
    codeowners

/-- `isApproved(octokit, repoDeets, pr, codeowners, owners, changedFiles)`:
`none` models the JavaScript `false` return, `some approvers` the truthy
approver-array return. -/
def isApproved (comments : List Comment) (reviews : List Review) (prAuthor : String)
    (codeowners : Codeowners) (owners : List String) (changedFiles : List String) :
    Option (List String) :=
  let approvers := getApprovers comments reviews owners prAuthor
  if approvers.length == 0 then
    none
  else
    let changedFilesNotApproved := unapprovedFilesAfter approvers prAuthor codeowners changedFiles
    let missingOwners := getCodeOwners changedFilesNotApproved codeowners
    if missingOwners.length > 0 && changedFilesNotApproved.length > 0 then
      none
    else
      some approvers

/-- A check run as returned by `octokit.checks.listForRef`. -/
structure CheckRun where
  name : String
  status : String
  conclusion : String
deriving DecidableEq

/-- The failed-run scan of `isCheckSuiteGreen`: a completed check run
with a conclusion other than `success`/`neutral`, excluding the invoking
job's own run (`process.env.GITHUB_JOB`). -/
def findFailedRun (checkRuns : List CheckRun) (jobName : String) : Option CheckRun :=
  checkRuns.find? (fun s =>
    s.status == "completed" &&
    !(decide (s.conclusion ∈ ["success", "neutral"])) &&
    s.name != jobName)

/-- The in-progress scan of `isCheckSuiteGreen`, again excluding the
invoking job's own run. -/
def findInProgressRun (checkRuns : List CheckRun) (jobName : String) : Option CheckRun :=
  checkRuns.find? (fun s => s.status == "in_progress" && s.name != jobName)

/-- `isCheckSuiteGreen(octokit, repoDeets, pr)`.  The successive results
of `octokit.checks.listForRef` are supplied as an explicit observation
trace; the function walks it exactly as the `while` loop does: abort with
`false` on a failed run, stop with `true` when nothing (other than the
job itself) is in progress, otherwise sleep 5000 ms and poll again.  The
first component is `none` when the trace is exhausted with the loop still
waiting (the loop itself has no internal timeout); the second component
records the sleep durations performed, in milliseconds. -/
def isCheckSuiteGreen (jobName : String) : List (List CheckRun) → Option Bool × List Nat
  | [] => (none, [])
  | checkRuns :: rest =>
    if (findFailedRun checkRuns jobName).isSome then
      (some false, [])
    else if (findInProgressRun checkRuns jobName).isNone then
      (some true, [])
    else
      let next := isCheckSuiteGreen jobName rest
      (next.1, 5000 :: next.2)

/-- A label configuration (`{ name, color }` in the source). -/
structure Label where
  name : String
  color : String
deriving DecidableEq

def mergeReadyLabel : Label := ⟨"merge-ready", "00ff00"⟩

def needsLgtmLabel : Label := ⟨"needs-lgtm", "FFA500"⟩

def needsMergeLabel : Label := ⟨"needs-merge", "FFA500"⟩

def needsManualMergeLabel : Label := ⟨"needs-manual-merge", "FFA500"⟩

def lgtmLabel : Label := ⟨"lgtm", "00FFFF"⟩

/-- The fixed label vocabulary (`allLabels` in the source). -/
def allLabels : List Label :=
  [mergeReadyLabel, needsLgtmLabel, needsManualMergeLabel, lgtmLabel, needsMergeLabel]

/-- The names of the fixed label vocabulary. -/
def labelVocabulary : List String := allLabels.map Label.name

/-- The effect of `setLabels(octokit, repoDeets, labelConfigs, prNumber)`
on the PR's attached label set: `addLabels` attaches every target name,
then every member of `allLabels` not among the targets is removed
(removal of an absent label raises an API error which the source catches
and ignores, hence removal is a plain filter here). -/
def applySetLabels (attached : List String) (labelConfigs : List Label) : List String :=
  let afterAdd := (labelConfigs.map Label.name).foldl insertUnique attached
  let removing := (allLabels.filter (fun l => decide (l ∉ labelConfigs))).map Label.name
  afterAdd.filter (fun n => decide (n ∉ removing))

/-- A stored issue comment, as listed by `octokit.issues.listComments`. -/
structure StoredComment where
  id : Nat
  body : String
deriving DecidableEq

/-- `hasPRWelcomeMessage`: the first stored comment carrying the
idempotency marker, if any. -/
def hasPRWelcomeMessage (comments : List StoredComment) : Option StoredComment :=
  comments.find? (fun c => strContains c.body ourSignature)

/-- `welcomeMessage(octokit, repoDeets, prNumber, message)` as a
transformation of the stored comment list: if a managed comment exists
and already contains the message, do nothing; if it exists but differs,
update it in place to `message + ourSignature`; otherwise create a fresh
comment `message + ourSignature` (with platform-assigned id `freshId`). -/
def welcomeMessage (comments : List StoredComment) (message : String)
    (freshId : Nat) : List StoredComment :=
  match hasPRWelcomeMessage comments with
  | some comment =>
    if strContains comment.body message then
      comments
    else
      comments.map (fun c =>
        if c.id = comment.id then { c with body := message ++ ourSignature } else c)
  | none => comments ++ [⟨freshId, message ++ ourSignature⟩]

/-- The number of stored comments carrying the idempotency marker. -/
def welcomeMessageCount (comments : List StoredComment) : Nat :=
  (comments.filter (fun c => strContains c.body ourSignature)).length

/-- `owners.filter((o) => o !== "@" + pr.user.login)` — the owners other
than the PR author (source line 478). -/
def approverOwners (owners : List String) (prAuthor : String) : List String :=
  owners.filter (fun o => decide (o ≠ "@" ++ prAuthor))

/-- The input of one `run()` invocation: PR metadata, the full
comment/review history, the CODEOWNERS oracle, and the outcomes of the
external calls (`pulls.get` when triggered from an issue payload, the
check-suite gate, the merge call). -/
structure RunInput where
  prAuthor : String
  payloadIsIssue : Bool
  prLookupSucceeds : Bool
  changedFiles : List String
  codeowners : Codeowners
  comments : List Comment
  reviews : List Review
  checkSuiteGreen : Bool
  mergeSucceeds : Bool

/-- The observable outcome of one `run()` invocation.  `exitCode` is the
process exit status (a plain return from `run` ends the process with 0);
`merged` records whether `octokit.pulls.merge` succeeded;
`attachedLabels` is the PR's label set after the run, given the set
`initialLabels` it started with; `lastLabelTarget` is the `labelConfigs`
name list of the last `setLabels` call, if any; `setFailedMerge` records
whether `core.setFailed("Failed to merge")` ran. -/
structure RunResult where
  exitCode : Nat
  merged : Bool
  attachedLabels : List String
  lastLabelTarget : Option (List String)
  setFailedMerge : Bool
deriving DecidableEq

/-- One iteration of the catch handler's loop over the changed files
(source lines 572–581): a workflow-touching file pushes the
`needs-manual-merge` label config and replays `setLabels`.  The state is
(labelConfigs, attached labels, last `setLabels` target). -/
def workflowLabelStep (st : List Label × List String × Option (List String))
    (file : String) : List Label × List String × Option (List String) :=
  if strContains file ".github/workflows" then
    let moreConfigs := st.1 ++ [needsManualMergeLabel]
    (moreConfigs, applySetLabels st.2.1 moreConfigs, some (moreConfigs.map Label.name))
  else st

/-- The tail of `run()` once a merge command was found (source lines
537–587): set `lgtm` + `merge-ready`, gate on the check suite, merge; on
merge failure run the workflow-file loop, then `core.setFailed("Failed
to merge")` and `process.exit(1)`. -/
def runGated (inp : RunInput) (initialLabels : List String) : RunResult :=
  let configs := [lgtmLabel, mergeReadyLabel]
  let attached := applySetLabels initialLabels configs
  if !inp.checkSuiteGreen then
    ⟨1, false, attached, some (configs.map Label.name), false⟩
  else if inp.mergeSucceeds then
    ⟨0, true, attached, some (configs.map Label.name), false⟩
  else
    let final := inp.changedFiles.foldl workflowLabelStep
      (configs, attached, some (configs.map Label.name))
    ⟨1, false, final.2.1, final.2.2, true⟩

/-- The tail of `run()` once `isApproved` returned the approver list
(source lines 521–536): require a `/merge` command, else fail with
`lgtm` + `needs-merge`. -/
def runApproved (inp : RunInput) (initialLabels : List String)
    (appOwners : List String) : RunResult :=
  if !(hasMergeCommand inp.comments inp.reviews appOwners inp.prAuthor) then
    ⟨1, false, applySetLabels initialLabels [lgtmLabel, needsMergeLabel],
      some ([lgtmLabel, needsMergeLabel].map Label.name), false⟩
  else
    runGated inp initialLabels

/-- The decision core of `run()` (source lines 397–588).  Comment posting
(`welcomeMessage`, `sendCommentUpdate`, the completion comment), reviewer
assignment and the fixed sleeps have no influence on the outcome fields
and are not threaded here; everything that decides the exit status, the
merge call and the label state is translated branch by branch. -/
def runModel (inp : RunInput) (initialLabels : List String) : RunResult :=
  if inp.payloadIsIssue && !inp.prLookupSucceeds then
    -- `pulls.get` failed: "Exiting safely", plain return, process exits 0.
    ⟨0, false, initialLabels, none, false⟩
  else
    let owners := getCodeOwners inp.changedFiles inp.codeowners
    if owners.length == 0 then
      -- "No owners for changes found" — `process.exit(0)`.
      ⟨0, false, initialLabels, none, false⟩
    else
      let appOwners := approverOwners owners inp.prAuthor
      match isApproved inp.comments inp.reviews inp.prAuthor inp.codeowners
          appOwners inp.changedFiles with
      | none =>
        ⟨1, false, applySetLabels initialLabels [needsLgtmLabel],
          some ([needsLgtmLabel].map Label.name), false⟩
      | some _ => runApproved inp initialLabels appOwners

/-! ## Basic membership lemmas for the set-manipulating helpers -/

theorem mem_insertUnique {acc : List String} {x y : String} :
    x ∈ insertUnique acc y ↔ x ∈ acc ∨ x = y := by
  unfold insertUnique
  by_cases h : y ∈ acc
  · simp only [if_pos h]
    constructor
    · exact Or.inl
    · rintro (hx | rfl)
      · exact hx
      · exact h
  · simp [if_neg h]

theorem mem_foldl_insertUnique :
    ∀ {l a : List String} {z : String},
      z ∈ l.foldl insertUnique a ↔ z ∈ a ∨ z ∈ l := by
  intro l
  induction l with
  | nil => intro a z; simp
  | cons y t ih =>
    intro a z
    simp only [List.foldl_cons]
    rw [ih, mem_insertUnique]
    simp only [List.mem_cons]
    tauto

theorem mem_getFilesNotOwnedByCodeOwner {owner : String} {files : List String}
    {co : Codeowners} {f : String} :
    f ∈ getFilesNotOwnedByCodeOwner owner files co ↔
      f ∈ files ∧ owner ∉ co.getOwner (relativePath f) := by
  unfold getFilesNotOwnedByCodeOwner
  simp [List.mem_filter]

theorem mem_approverFold {co : Codeowners} :
    ∀ {approvers : List String} {files : List String} {f : String},
      f ∈ approvers.foldl
            (fun acc approver => getFilesNotOwnedByCodeOwner ("@" ++ approver) acc co)
            files ↔
        f ∈ files ∧ ∀ a ∈ approvers, ("@" ++ a) ∉ co.getOwner (relativePath f) := by
  intro approvers
  induction approvers with
  | nil => intro files f; simp
  | cons a t ih =>
    intro files f
    simp only [List.foldl_cons]
    rw [ih, mem_getFilesNotOwnedByCodeOwner]
    constructor
    · rintro ⟨⟨hf, ha⟩, ht⟩
      refine ⟨hf, ?_⟩
      intro b hb
      rcases List.mem_cons.mp hb with rfl | hb
      · exact ha
      · exact ht b hb
    · rintro ⟨hf, hall⟩
      exact ⟨⟨hf, hall a (List.mem_cons_self a t)⟩,
        fun b hb => hall b (List.mem_cons_of_mem a hb)⟩

/-- Membership in the residual unapproved-file set of `isApproved`: a file
survives iff no approver and not the PR author is among its owner
entries. -/
theorem mem_unapprovedFilesAfter {approvers : List String} {prAuthor : String}
    {co : Codeowners} {changedFiles : List String} {f : String} :
    f ∈ unapprovedFilesAfter approvers prAuthor co changedFiles ↔
      f ∈ changedFiles ∧
      (∀ a ∈ approvers, ("@" ++ a) ∉ co.getOwner (relativePath f)) ∧
      ("@" ++ prAuthor) ∉ co.getOwner (relativePath f) := by
  unfold unapprovedFilesAfter
  rw [mem_getFilesNotOwnedByCodeOwner, mem_approverFold]
  tauto

/-- Membership in `getCodeOwners`: exactly the `@`-prefixed owner entries
of the files. -/
theorem mem_getCodeOwners {files : List String} {co : Codeowners} {o : String} :
    o ∈ getCodeOwners files co ↔
      strStarts o "@" = true ∧ ∃ f ∈ files, o ∈ co.getOwner (relativePath f) := by
  unfold getCodeOwners
  rw [mem_foldl_insertUnique]
  simp only [List.not_mem_nil, false_or, List.mem_flatMap, List.mem_filter]
  constructor
  · rintro ⟨f, hf, ho, hs⟩
    exact ⟨hs, f, hf, ho⟩
  · rintro ⟨hs, f, hf, ho⟩
    exact ⟨f, hf, ho, hs⟩

/-! ## String lemmas -/

theorem strStarts_append (p s : String) : strStarts (p ++ s) p = true := by
  unfold strStarts
  rw [String.data_append]
  exact List.isPrefixOf_iff_prefix.mpr (List.prefix_append _ _)

theorem strContains_append_right (a b : String) : strContains (a ++ b) b = true := by
  unfold strContains
  rw [List.any_eq_true]
  exact ⟨b.data, (List.mem_tails _ _).mpr (by rw [String.data_append]; exact List.suffix_append _ _),
    List.isPrefixOf_iff_prefix.mpr (List.prefix_refl _)⟩

theorem strContains_append_left (a b : String) : strContains (a ++ b) a = true := by
  unfold strContains
  rw [List.any_eq_true]
  exact ⟨(a ++ b).data, (List.mem_tails _ _).mpr (List.suffix_refl _),
    by rw [String.data_append]; exact List.isPrefixOf_iff_prefix.mpr (List.prefix_append _ _)⟩

/-- The declared (principal) owner set of a single changed file: the
`@`-prefixed entries of its CODEOWNERS rule, exactly as `getCodeOwners`
collects them per file. -/
def declaredOwners (co : Codeowners) (file : String) : List String :=
  (co.getOwner (relativePath file)).filter (fun o => strStarts o "@")

/-- A marked principal is in the declared owner set iff it is among the
raw owner entries (a `"@" ++ a` entry always passes the `@` filter). -/
theorem marked_mem_declaredOwners {co : Codeowners} {file a : String} :
    ("@" ++ a) ∈ declaredOwners co file ↔ ("@" ++ a) ∈ co.getOwner (relativePath file) := by
  unfold declaredOwners
  rw [List.mem_filter]
  simp [strStarts_append "@" a]

theorem getCodeOwners_ne_nil_iff {files : List String} {co : Codeowners} :
    getCodeOwners files co ≠ [] ↔
      ∃ f ∈ files, ∃ o ∈ co.getOwner (relativePath f), strStarts o "@" = true := by
  constructor
  · intro h
    obtain ⟨o, ho⟩ := List.exists_mem_of_ne_nil _ h
    obtain ⟨hs, f, hf, hof⟩ := mem_getCodeOwners.mp ho
    exact ⟨f, hf, o, hof, hs⟩
  · rintro ⟨f, hf, o, hof, hs⟩
    exact List.ne_nil_of_mem (mem_getCodeOwners.mpr ⟨hs, f, hf, hof⟩)

/-! ## Claim theorems -/

/-- C1.  With a non-empty approver list, `isApproved` returns the blocking
result (`none`, the JavaScript `false`) iff some changed file has a
non-empty declared owner set containing neither any collected approver
nor the PR author; in particular residual files with an empty declared
owner set never block. -/
theorem isApproved_blocking_iff (comments : List Comment) (reviews : List Review)
    (prAuthor : String) (co : Codeowners) (owners changedFiles : List String)
    (h : getApprovers comments reviews owners prAuthor ≠ []) :
    isApproved comments reviews prAuthor co owners changedFiles = none ↔
      ∃ f ∈ changedFiles,
        declaredOwners co f ≠ [] ∧
        (∀ a ∈ getApprovers comments reviews owners prAuthor,
          ("@" ++ a) ∉ declaredOwners co f) ∧
        ("@" ++ prAuthor) ∉ declaredOwners co f := by
  have hlen : ((getApprovers comments reviews owners prAuthor).length == 0) = false := by
    simp [List.length_eq_zero, h]
  unfold isApproved
  simp only [hlen, Bool.false_eq_true, if_false]
  set A := getApprovers comments reviews owners prAuthor with hA
  set files2 := unapprovedFilesAfter A prAuthor co changedFiles with hfiles2
  by_cases hmiss : getCodeOwners files2 co = []
  · have hcond : (decide (0 < (getCodeOwners files2 co).length) &&
        decide (0 < files2.length)) = false := by
      simp [hmiss]
    simp only [hcond, Bool.false_eq_true, if_false]
    constructor
    · intro hcontra; cases hcontra
    · rintro ⟨f, hf, hne, hnapp, hnauth⟩
      exfalso
      have hfmem : f ∈ files2 := by
        rw [hfiles2, mem_unapprovedFilesAfter]
        refine ⟨hf, ?_, ?_⟩
        · intro a ha
          exact fun hc => hnapp a ha (marked_mem_declaredOwners.mpr hc)
        · exact fun hc => hnauth (marked_mem_declaredOwners.mpr hc)
      obtain ⟨o, ho⟩ := List.exists_mem_of_ne_nil _ hne
      have : o ∈ getCodeOwners files2 co := by
        rw [mem_getCodeOwners]
        rcases List.mem_filter.mp ho with ⟨hraw, hs⟩
        exact ⟨hs, f, hfmem, hraw⟩
      rw [hmiss] at this
      cases this
  · obtain ⟨o, ho⟩ := List.exists_mem_of_ne_nil _ hmiss
    obtain ⟨hs, f, hfmem, hraw⟩ := mem_getCodeOwners.mp ho
    have hf2 := hfmem
    rw [hfiles2, mem_unapprovedFilesAfter] at hf2
    obtain ⟨hf, hnapp, hnauth⟩ := hf2
    have hcond : (decide (0 < (getCodeOwners files2 co).length) &&
        decide (0 < files2.length)) = true := by
      have h1 : 0 < (getCodeOwners files2 co).length := List.length_pos.mpr hmiss
      have h2 : 0 < files2.length := List.length_pos.mpr (List.ne_nil_of_mem hfmem)
      simp [h1, h2]
    simp only [hcond, if_true]
    constructor
    · intro _
      refine ⟨f, hf, ?_, ?_, ?_⟩
      · exact List.ne_nil_of_mem (List.mem_filter.mpr ⟨hraw, hs⟩)
      · intro a ha hc
        exact hnapp a ha (marked_mem_declaredOwners.mp hc)
      · exact fun hc => hnauth (marked_mem_declaredOwners.mp hc)
    · intro _
      trivial

/-- Witness for C1: a `/lgtm` from `carol` on a file owned only by
`dave` blocks, and the characterization applies. -/
theorem isApproved_blocking_iff_witness :
    getApprovers [⟨"carol", "/lgtm"⟩] [] ["@carol"] "alice" ≠ [] ∧
    (isApproved [⟨"carol", "/lgtm"⟩] [] "alice"
        ⟨fun p => if p = "a.js" then ["@dave"] else []⟩ ["@carol"] ["/a.js"] = none ↔
      ∃ f ∈ ["/a.js"],
        declaredOwners ⟨fun p => if p = "a.js" then ["@dave"] else []⟩ f ≠ [] ∧
        (∀ a ∈ getApprovers [⟨"carol", "/lgtm"⟩] [] ["@carol"] "alice",
          ("@" ++ a) ∉ declaredOwners ⟨fun p => if p = "a.js" then ["@dave"] else []⟩ f) ∧
        ("@" ++ "alice") ∉ declaredOwners ⟨fun p => if p = "a.js" then ["@dave"] else []⟩ f) :=
  ⟨by decide, isApproved_blocking_iff _ _ _ _ _ _ (by decide)⟩

/-- Any approver of a larger approver list filters the residual file set
at least as hard: the unapproved set is antitone in the approver list. -/
theorem unapprovedFilesAfter_anti {approversSmall approversBig : List String}
    {prAuthor : String} {co : Codeowners} {changedFiles : List String}
    (h : ∀ x ∈ approversSmall, x ∈ approversBig) :
    unapprovedFilesAfter approversBig prAuthor co changedFiles ⊆
      unapprovedFilesAfter approversSmall prAuthor co changedFiles := by
  intro f hf
  rw [mem_unapprovedFilesAfter] at hf ⊢
  exact ⟨hf.1, fun a ha => hf.2.1 a (h a ha), hf.2.2⟩

/-- C6.  Adding one more approval signal — either directly as one more
entry of the approver list, or as one more valid `/lgtm` comment in the
history — never enlarges the residual unapproved-file set: each approver
step only filters the remaining file list. -/
theorem unapprovedFilesAfter_monotone (comments : List Comment) (reviews : List Review)
    (c : Comment) (owners : List String) (prAuthor : String) (co : Codeowners)
    (changedFiles : List String) (a : String) (approvers : List String) :
    unapprovedFilesAfter (approvers ++ [a]) prAuthor co changedFiles ⊆
      unapprovedFilesAfter approvers prAuthor co changedFiles ∧
    unapprovedFilesAfter (getApprovers (comments ++ [c]) reviews owners prAuthor)
        prAuthor co changedFiles ⊆
      unapprovedFilesAfter (getApprovers comments reviews owners prAuthor)
        prAuthor co changedFiles := by
  constructor
  · exact unapprovedFilesAfter_anti (fun x hx => List.mem_append_left _ hx)
  · refine unapprovedFilesAfter_anti (fun x hx => ?_)
    unfold getApprovers at hx ⊢
    rw [List.filter_append, List.map_append]
    rw [List.mem_append] at hx
    rcases hx with hx | hx
    · exact List.mem_append_left _ (List.mem_append_left _ hx)
    · exact List.mem_append_right _ hx

/-- C7.  The PR author never appears among the collected approvers (the
validity predicate rejects self-approval), and `approverOwners` never
contains the author's marked principal even when the author owns changed
files. -/
theorem author_self_exclusion (comments : List Comment) (reviews : List Review)
    (owners allOwners : List String) (prAuthor : String) :
    prAuthor ∉ getApprovers comments reviews owners prAuthor ∧
    ("@" ++ prAuthor) ∉ approverOwners allOwners prAuthor := by
  constructor
  · intro hmem
    unfold getApprovers at hmem
    rw [List.mem_append] at hmem
    rcases hmem with h | h
    · rw [List.mem_map] at h
      obtain ⟨x, hx, heq⟩ := h
      have hv := (List.mem_filter.mp hx).2
      simp only [isCommentValid, Bool.and_eq_true, bne_iff_ne, ne_eq] at hv
      have hne : x.userLogin ≠ prAuthor := by tauto
      exact hne heq
    · rw [List.mem_map] at h
      obtain ⟨x, hx, heq⟩ := h
      have hv := (List.mem_filter.mp hx).2
      simp only [isCommentValid, Bool.and_eq_true, bne_iff_ne, ne_eq] at hv
      have hne : x.userLogin ≠ prAuthor := by tauto
      exact hne heq
  · intro hmem
    unfold approverOwners at hmem
    have := (List.mem_filter.mp hmem).2
    simp at this

/-- C9.  A body that carries the idempotency marker is never classified
as a valid signal of any kind, whatever the command pattern, owner set
(including the empty open-approval one), author and extra validation —
so the bot's own status comments, which mention `/lgtm` and `/merge`,
are never counted as commands. -/
theorem signature_never_command (body author : String) (cmdMatch : String → Bool)
    (owners : List String) (prAuthor : String) (extraValidation : Bool)
    (h : strContains body ourSignature = true) :
    isCommentValid body author cmdMatch owners prAuthor extraValidation = false := by
  unfold isCommentValid
  rw [h]
  rfl

/-- Witness for C9: the bot's own welcome message (which mentions both
commands) plus marker is rejected as an approval signal even in
open-approval mode. -/
theorem signature_never_command_witness :
    strContains (ownersWillReviewMessage ++ ourSignature) ourSignature = true ∧
    isCommentValid (ownersWillReviewMessage ++ ourSignature) "bot" lgtmMatch []
      "alice" false = false :=
  ⟨strContains_append_right _ _,
   signature_never_command _ _ _ _ _ _ (strContains_append_right _ _)⟩

/-! ## The check-suite gate -/

/-- An observation contains a check run, other than the invoking job's
own, that is completed with a terminal failing conclusion. -/
def hasFailedCheck (checkRuns : List CheckRun) (jobName : String) : Prop :=
  ∃ r ∈ checkRuns, r.status = "completed" ∧
    r.conclusion ∉ ["success", "neutral"] ∧ r.name ≠ jobName

/-- An observation contains a check run, other than the invoking job's
own, that is still in progress. -/
def hasInProgressCheck (checkRuns : List CheckRun) (jobName : String) : Prop :=
  ∃ r ∈ checkRuns, r.status = "in_progress" ∧ r.name ≠ jobName

theorem findFailedRun_isSome_iff {checkRuns : List CheckRun} {jobName : String} :
    (findFailedRun checkRuns jobName).isSome = true ↔ hasFailedCheck checkRuns jobName := by
  unfold findFailedRun hasFailedCheck
  rw [List.find?_isSome]
  constructor
  · rintro ⟨r, hr, hp⟩
    refine ⟨r, hr, ?_⟩
    simp only [Bool.and_eq_true, beq_iff_eq, Bool.not_eq_true', decide_eq_false_iff_not,
      bne_iff_ne, ne_eq] at hp
    tauto
  · rintro ⟨r, hr, hp⟩
    refine ⟨r, hr, ?_⟩
    simp only [Bool.and_eq_true, beq_iff_eq, Bool.not_eq_true', decide_eq_false_iff_not,
      bne_iff_ne, ne_eq]
    tauto

theorem findInProgressRun_isSome_iff {checkRuns : List CheckRun} {jobName : String} :
    (findInProgressRun checkRuns jobName).isSome = true ↔
      hasInProgressCheck checkRuns jobName := by
  unfold findInProgressRun hasInProgressCheck
  rw [List.find?_isSome]
  constructor
  · rintro ⟨r, hr, hp⟩
    refine ⟨r, hr, ?_⟩
    simp only [Bool.and_eq_true, beq_iff_eq, bne_iff_ne, ne_eq] at hp
    tauto
  · rintro ⟨r, hr, hp⟩
    refine ⟨r, hr, ?_⟩
    simp only [Bool.and_eq_true, beq_iff_eq, bne_iff_ne, ne_eq]
    tauto

theorem isCheckSuiteGreen_cons (jobName : String) (obs0 : List CheckRun)
    (rest : List (List CheckRun)) :
    isCheckSuiteGreen jobName (obs0 :: rest) =
      if (findFailedRun obs0 jobName).isSome then (some false, [])
      else if (findInProgressRun obs0 jobName).isNone then (some true, [])
      else ((isCheckSuiteGreen jobName rest).1, 5000 :: (isCheckSuiteGreen jobName rest).2) :=
  rfl

/-- The steady observation property: nothing failed, something (other
than the job itself) still running. -/
def pendingObs (obs : List CheckRun) (jobName : String) : Prop :=
  ¬ hasFailedCheck obs jobName ∧ hasInProgressCheck obs jobName

theorem gate_false_iff (jobName : String) :
    ∀ trace : List (List CheckRun),
      (isCheckSuiteGreen jobName trace).1 = some false ↔
        ∃ pre obs post, trace = pre ++ obs :: post ∧
          (∀ o ∈ pre, pendingObs o jobName) ∧ hasFailedCheck obs jobName := by
  intro trace
  induction trace with
  | nil =>
    constructor
    · intro h; cases h
    · rintro ⟨pre, obs, post, h, -, -⟩
      cases pre <;> simp at h
  | cons obs0 rest ih =>
    rw [isCheckSuiteGreen_cons]
    by_cases hfail : (findFailedRun obs0 jobName).isSome = true
    · rw [if_pos hfail]
      simp only [true_iff]
      exact ⟨[], obs0, rest, rfl, by simp, findFailedRun_isSome_iff.mp hfail⟩
    · rw [if_neg hfail]
      have hnofail : ¬ hasFailedCheck obs0 jobName :=
        fun hc => hfail (findFailedRun_isSome_iff.mpr hc)
      by_cases hprog : (findInProgressRun obs0 jobName).isNone = true
      · rw [if_pos hprog]
        constructor
        · intro h; cases h
        · rintro ⟨pre, obs, post, heq, hpre, hobs⟩
          cases pre with
          | nil =>
            simp only [List.nil_append, List.cons.injEq] at heq
            exact absurd (heq.1 ▸ hobs) hnofail
          | cons p ps =>
            simp only [List.cons_append, List.cons.injEq] at heq
            obtain ⟨rfl, -⟩ := heq
            have hinprog := (hpre obs0 (List.mem_cons_self _ _)).2
            rw [Option.isNone_iff_eq_none] at hprog
            have : (findInProgressRun obs0 jobName).isSome = true :=
              findInProgressRun_isSome_iff.mpr hinprog
            rw [hprog] at this
            cases this
      · rw [if_neg hprog]
        have hinprog : hasInProgressCheck obs0 jobName := by
          rw [← findInProgressRun_isSome_iff]
          cases ho : (findInProgressRun obs0 jobName) with
          | none => exact absurd (by rw [ho]; rfl) hprog
          | some v => rfl
        simp only []
        rw [ih]
        constructor
        · rintro ⟨pre, obs, post, heq, hpre, hobs⟩
          refine ⟨obs0 :: pre, obs, post, by rw [heq, List.cons_append], ?_, hobs⟩
          intro o ho
          rcases List.mem_cons.mp ho with rfl | ho
          · exact ⟨hnofail, hinprog⟩
          · exact hpre o ho
        · rintro ⟨pre, obs, post, heq, hpre, hobs⟩
          cases pre with
          | nil =>
            simp only [List.nil_append, List.cons.injEq] at heq
            exact absurd (heq.1 ▸ hobs) hnofail
          | cons p ps =>
            simp only [List.cons_append, List.cons.injEq] at heq
            obtain ⟨rfl, htail⟩ := heq
            exact ⟨ps, obs, post, htail,
              fun o ho => hpre o (List.mem_cons_of_mem _ ho), hobs⟩

theorem gate_true_iff (jobName : String) :
    ∀ trace : List (List CheckRun),
      (isCheckSuiteGreen jobName trace).1 = some true ↔
        ∃ pre obs post, trace = pre ++ obs :: post ∧
          (∀ o ∈ pre, pendingObs o jobName) ∧
          ¬ hasFailedCheck obs jobName ∧ ¬ hasInProgressCheck obs jobName := by
  intro trace
  induction trace with
  | nil =>
    constructor
    · intro h; cases h
    · rintro ⟨pre, obs, post, h, -, -⟩
      cases pre <;> simp at h
  | cons obs0 rest ih =>
    rw [isCheckSuiteGreen_cons]
    by_cases hfail : (findFailedRun obs0 jobName).isSome = true
    · rw [if_pos hfail]
      constructor
      · intro h; cases h
      · rintro ⟨pre, obs, post, heq, hpre, hobs⟩
        cases pre with
        | nil =>
          simp only [List.nil_append, List.cons.injEq] at heq
          exact absurd (findFailedRun_isSome_iff.mp hfail) (heq.1 ▸ hobs.1)
        | cons p ps =>
          simp only [List.cons_append, List.cons.injEq] at heq
          obtain ⟨rfl, -⟩ := heq
          exact absurd (findFailedRun_isSome_iff.mp hfail)
            (hpre obs0 (List.mem_cons_self _ _)).1
    · rw [if_neg hfail]
      have hnofail : ¬ hasFailedCheck obs0 jobName :=
        fun hc => hfail (findFailedRun_isSome_iff.mpr hc)
      by_cases hprog : (findInProgressRun obs0 jobName).isNone = true
      · rw [if_pos hprog]
        have hnoprog : ¬ hasInProgressCheck obs0 jobName := by
          intro hc
          have := findInProgressRun_isSome_iff.mpr hc
          rw [Option.isNone_iff_eq_none] at hprog
          rw [hprog] at this
          cases this
        simp only [true_iff]
        exact ⟨[], obs0, rest, rfl, by simp, hnofail, hnoprog⟩
      · rw [if_neg hprog]
        have hinprog : hasInProgressCheck obs0 jobName := by
          rw [← findInProgressRun_isSome_iff]
          cases ho : (findInProgressRun obs0 jobName) with
          | none => exact absurd (by rw [ho]; rfl) hprog
          | some v => rfl
        simp only []
        rw [ih]
        constructor
        · rintro ⟨pre, obs, post, heq, hpre, hobs⟩
          refine ⟨obs0 :: pre, obs, post, by rw [heq, List.cons_append], ?_, hobs⟩
          intro o ho
          rcases List.mem_cons.mp ho with rfl | ho
          · exact ⟨hnofail, hinprog⟩
          · exact hpre o ho
        · rintro ⟨pre, obs, post, heq, hpre, hobs⟩
          cases pre with
          | nil =>
            simp only [List.nil_append, List.cons.injEq] at heq
            exact absurd hinprog (heq.1 ▸ hobs.2)
          | cons p ps =>
            simp only [List.cons_append, List.cons.injEq] at heq
            obtain ⟨rfl, htail⟩ := heq
            exact ⟨ps, obs, post, htail,
              fun o ho => hpre o (List.mem_cons_of_mem _ ho), hobs⟩

theorem gate_sleeps_5000 (jobName : String) :
    ∀ trace : List (List CheckRun),
      ∀ d ∈ (isCheckSuiteGreen jobName trace).2, d = 5000 := by
  intro trace
  induction trace with
  | nil => intro d hd; cases hd
  | cons obs0 rest ih =>
    rw [isCheckSuiteGreen_cons]
    by_cases hfail : (findFailedRun obs0 jobName).isSome = true
    · rw [if_pos hfail]; intro d hd; cases hd
    · rw [if_neg hfail]
      by_cases hprog : (findInProgressRun obs0 jobName).isNone = true
      · rw [if_pos hprog]; intro d hd; cases hd
      · rw [if_neg hprog]
        intro d hd
        rcases List.mem_cons.mp hd with rfl | hd
        · rfl
        · exact ih d hd

theorem gate_no_timeout (jobName : String) :
    ∀ trace : List (List CheckRun),
      (∀ o ∈ trace, pendingObs o jobName) →
      (isCheckSuiteGreen jobName trace).1 = none := by
  intro trace
  induction trace with
  | nil => intro _; rfl
  | cons obs0 rest ih =>
    intro hall
    rw [isCheckSuiteGreen_cons]
    have h0 := hall obs0 (List.mem_cons_self _ _)
    have hfail : ¬ (findFailedRun obs0 jobName).isSome = true :=
      fun hc => h0.1 (findFailedRun_isSome_iff.mp hc)
    have hprog : ¬ (findInProgressRun obs0 jobName).isNone = true := by
      intro hc
      have := findInProgressRun_isSome_iff.mpr h0.2
      rw [Option.isNone_iff_eq_none] at hc
      rw [hc] at this
      cases this
    rw [if_neg hfail, if_neg hprog]
    exact ih (fun o ho => hall o (List.mem_cons_of_mem _ ho))

/-- C4.  The check gate, run over any observation trace: it answers the
blocking `false` exactly when an observed poll contains a non-self check
run completed with a failing conclusion (all earlier polls being
failure-free with work still in progress); it answers `true` exactly when
a poll with no failure and no non-self in-progress run is reached the
same way; every sleep between polls is exactly 5000 ms; and on a trace
that never settles it never gives up on its own (no internal timeout). -/
theorem isCheckSuiteGreen_spec (jobName : String) (trace : List (List CheckRun)) :
    ((isCheckSuiteGreen jobName trace).1 = some false ↔
      ∃ pre obs post, trace = pre ++ obs :: post ∧
        (∀ o ∈ pre, pendingObs o jobName) ∧ hasFailedCheck obs jobName) ∧
    ((isCheckSuiteGreen jobName trace).1 = some true ↔
      ∃ pre obs post, trace = pre ++ obs :: post ∧
        (∀ o ∈ pre, pendingObs o jobName) ∧
        ¬ hasFailedCheck obs jobName ∧ ¬ hasInProgressCheck obs jobName) ∧
    (∀ d ∈ (isCheckSuiteGreen jobName trace).2, d = 5000) ∧
    ((∀ o ∈ trace, pendingObs o jobName) →
      (isCheckSuiteGreen jobName trace).1 = none) :=
  ⟨gate_false_iff jobName trace, gate_true_iff jobName trace,
   gate_sleeps_5000 jobName trace, gate_no_timeout jobName trace⟩

/-! ## Idempotency of the managed status comment -/

theorem welcomeMessage_eq_of_none {comments : List StoredComment} {message : String}
    {freshId : Nat} (h : hasPRWelcomeMessage comments = none) :
    welcomeMessage comments message freshId =
      comments ++ [⟨freshId, message ++ ourSignature⟩] := by
  unfold welcomeMessage
  rw [h]

theorem welcomeMessage_eq_of_found {comments : List StoredComment} {message : String}
    {freshId : Nat} {c : StoredComment} (h : hasPRWelcomeMessage comments = some c) :
    welcomeMessage comments message freshId =
      if strContains c.body message = true then comments
      else comments.map
        (fun x => if x.id = c.id then { x with body := message ++ ourSignature } else x) := by
  unfold welcomeMessage
  rw [h]

theorem hasPRWelcomeMessage_append_fresh {comments : List StoredComment}
    {message : String} {freshId : Nat}
    (hnone : hasPRWelcomeMessage comments = none) :
    hasPRWelcomeMessage (comments ++ [⟨freshId, message ++ ourSignature⟩]) =
      some ⟨freshId, message ++ ourSignature⟩ := by
  unfold hasPRWelcomeMessage at hnone ⊢
  rw [List.find?_append, hnone]
  simp [strContains_append_right]

/-- C8.  Over any comment store with platform-unique comment ids carrying
at most one managed comment, running the welcome/status step twice with
the same message leaves exactly one marker-bearing comment, and the
second invocation changes nothing at all (it either finds the message
already present or has just been preceded by the in-place update) — in
particular it never creates a second marker-bearing comment. -/
theorem welcomeMessage_idempotent (comments : List StoredComment) (message : String)
    (id1 id2 : Nat)
    (hids : (comments.map StoredComment.id).Nodup)
    (hcount : welcomeMessageCount comments ≤ 1) :
    welcomeMessage (welcomeMessage comments message id1) message id2 =
      welcomeMessage comments message id1 ∧
    welcomeMessageCount (welcomeMessage comments message id1) = 1 := by
  cases hfind : hasPRWelcomeMessage comments with
  | none =>
    have hs1 := @welcomeMessage_eq_of_none comments message id1 hfind
    have hall : ∀ c ∈ comments, ¬ (strContains c.body ourSignature = true) := by
      intro c hc
      have h2 := List.find?_eq_none.mp hfind c hc
      simpa using h2
    constructor
    · rw [hs1, welcomeMessage_eq_of_found (hasPRWelcomeMessage_append_fresh hfind)]
      rw [if_pos (strContains_append_left message ourSignature)]
    · rw [hs1]
      unfold welcomeMessageCount
      rw [List.filter_append]
      have hnil : comments.filter (fun c => strContains c.body ourSignature) = [] :=
        List.filter_eq_nil_iff.mpr hall
      rw [hnil]
      simp [strContains_append_right]
  | some c =>
    have hdecomp := List.find?_eq_some.mp (by
      unfold hasPRWelcomeMessage at hfind
      exact hfind)
    obtain ⟨hc, as, bs, hsplit, hpre⟩ := hdecomp
    have hprefalse : ∀ a ∈ as, strContains a.body ourSignature = false := by
      intro a ha
      have := hpre a ha
      simpa using this
    have hasnil : as.filter (fun x => strContains x.body ourSignature) = [] := by
      rw [List.filter_eq_nil_iff]
      intro a ha
      rw [hprefalse a ha]
      simp
    -- at most one marker: everything after the found comment is unmarked
    have hbsfalse : ∀ x ∈ bs, strContains x.body ourSignature = false := by
      have hlen : welcomeMessageCount comments =
          (bs.filter (fun x => strContains x.body ourSignature)).length + 1 := by
        unfold welcomeMessageCount
        rw [hsplit, List.filter_append,
          List.filter_cons_of_pos (p := fun (x : StoredComment) => strContains x.body ourSignature) hc, hasnil]
        simp [Nat.add_comm]
      intro x hx
      have hz : (bs.filter (fun x => strContains x.body ourSignature)).length = 0 := by
        omega
      rw [List.length_eq_zero] at hz
      have := List.filter_eq_nil_iff.mp hz x hx
      simpa using this
    have hbsnil : bs.filter (fun x => strContains x.body ourSignature) = [] := by
      rw [List.filter_eq_nil_iff]
      intro a ha
      rw [hbsfalse a ha]
      simp
    have hcount1 : welcomeMessageCount comments = 1 := by
      unfold welcomeMessageCount
      rw [hsplit, List.filter_append,
        List.filter_cons_of_pos (p := fun (x : StoredComment) => strContains x.body ourSignature) hc,
        hasnil, hbsnil]
      rfl
    by_cases hmsg : strContains c.body message = true
    · have hs1 : welcomeMessage comments message id1 = comments := by
        rw [welcomeMessage_eq_of_found hfind, if_pos hmsg]
      rw [hs1]
      refine ⟨?_, hcount1⟩
      rw [welcomeMessage_eq_of_found hfind, if_pos hmsg]
    · -- in-place update of the found comment
      have hids' := hids
      rw [hsplit, List.map_append, List.map_cons, List.nodup_append] at hids'
      obtain ⟨-, hnodup2, hdisj⟩ := hids'
      have hasne : ∀ x ∈ as, x.id ≠ c.id := by
        intro x hx hxe
        exact hdisj (List.mem_map_of_mem _ hx) (by rw [hxe]; exact List.mem_cons_self _ _)
      have hbsne : ∀ x ∈ bs, x.id ≠ c.id := by
        intro x hx hxe
        rcases List.nodup_cons.mp hnodup2 with ⟨hnotin, -⟩
        exact hnotin (by rw [← hxe]; exact List.mem_map_of_mem _ hx)
      have hs1 : welcomeMessage comments message id1 =
          as ++ (⟨c.id, message ++ ourSignature⟩ : StoredComment) :: bs := by
        rw [welcomeMessage_eq_of_found hfind, if_neg hmsg, hsplit]
        rw [List.map_append, List.map_cons]
        congr 1
        · conv_rhs => rw [show as = as.map id from (List.map_id as).symm]
          apply List.map_congr_left
          intro x hx
          rw [if_neg (hasne x hx)]
          rfl
        · rw [if_pos rfl]
          congr 1
          conv_rhs => rw [show bs = bs.map id from (List.map_id bs).symm]
          apply List.map_congr_left
          intro x hx
          rw [if_neg (hbsne x hx)]
          rfl
      rw [hs1]
      have hfind1 : hasPRWelcomeMessage
          (as ++ (⟨c.id, message ++ ourSignature⟩ : StoredComment) :: bs) =
          some ⟨c.id, message ++ ourSignature⟩ := by
        unfold hasPRWelcomeMessage
        rw [List.find?_append, List.find?_eq_none.mpr (by
          intro a ha
          rw [hprefalse a ha]
          simp)]
        rw [Option.none_or]
        exact List.find?_cons_of_pos _ (strContains_append_right message ourSignature)
      constructor
      · rw [welcomeMessage_eq_of_found hfind1]
        rw [if_pos (strContains_append_left message ourSignature)]
      · unfold welcomeMessageCount
        rw [List.filter_append,
          List.filter_cons_of_pos (p := fun (x : StoredComment) => strContains x.body ourSignature)
            (strContains_append_right message ourSignature),
          hasnil, hbsnil]
        rfl

/-- Witness for C8 at a concrete store: a run on an unmanaged store with
one unrelated comment. -/
theorem welcomeMessage_idempotent_witness :
    (([⟨5, "hello"⟩] : List StoredComment).map StoredComment.id).Nodup ∧
    welcomeMessageCount [⟨5, "hello"⟩] ≤ 1 ∧
    (welcomeMessage (welcomeMessage [⟨5, "hello"⟩] "Thanks!" 6) "Thanks!" 7 =
      welcomeMessage [⟨5, "hello"⟩] "Thanks!" 6 ∧
     welcomeMessageCount (welcomeMessage [⟨5, "hello"⟩] "Thanks!" 6) = 1) :=
  ⟨by decide, by decide,
   welcomeMessage_idempotent [⟨5, "hello"⟩] "Thanks!" 6 7 (by decide) (by decide)⟩

/-! ## Label reconciliation -/

/-- The five labels of the fixed vocabulary have pairwise distinct
names. -/
theorem allLabels_name_inj :
    ∀ l1 ∈ allLabels, ∀ l2 ∈ allLabels, l1.name = l2.name → l1 = l2 := by decide

/-- After a `setLabels` call whose configs come from the fixed
vocabulary, a vocabulary name is attached iff some config carries it —
whatever was attached before. -/
theorem mem_applySetLabels {attached : List String} {configs : List Label} {n : String}
    (hconf : ∀ l ∈ configs, l ∈ allLabels) (hvocab : n ∈ labelVocabulary) :
    n ∈ applySetLabels attached configs ↔ ∃ l ∈ configs, l.name = n := by
  unfold applySetLabels
  rw [List.mem_filter, mem_foldl_insertUnique]
  simp only [decide_eq_true_eq]
  constructor
  · rintro ⟨-, hnotrem⟩
    by_contra hno
    push_neg at hno
    obtain ⟨l0, hl0, hl0n⟩ := List.mem_map.mp hvocab
    refine hnotrem ?_
    rw [List.mem_map]
    refine ⟨l0, ?_, hl0n⟩
    rw [List.mem_filter]
    refine ⟨hl0, ?_⟩
    simp only [decide_eq_true_eq]
    intro hmem
    exact hno l0 hmem hl0n
  · rintro ⟨l, hl, rfl⟩
    constructor
    · exact Or.inr (List.mem_map_of_mem _ hl)
    · intro hrem
      rw [List.mem_map] at hrem
      obtain ⟨l2, hl2, hl2n⟩ := hrem
      rw [List.mem_filter] at hl2
      have heq : l2 = l := allLabels_name_inj l2 hl2.1 l (hconf l hl) hl2n
      have := hl2.2
      simp only [decide_eq_true_eq] at this
      exact this (heq ▸ hl)

theorem mem_applySetLabels_name {attached : List String} {configs : List Label}
    {n : String} (hconf : ∀ l ∈ configs, l ∈ allLabels) (hvocab : n ∈ labelVocabulary) :
    n ∈ applySetLabels attached configs ↔ n ∈ configs.map Label.name := by
  rw [mem_applySetLabels hconf hvocab, List.mem_map]

/-- A vocabulary label absent from the configs contributes no name. -/
theorem name_not_mem_of_label_not_mem {configs : List Label} {lab : Label}
    (hconf : ∀ l ∈ configs, l ∈ allLabels) (hlab : lab ∈ allLabels)
    (hnot : lab ∉ configs) : lab.name ∉ configs.map Label.name := by
  intro hmem
  rw [List.mem_map] at hmem
  obtain ⟨l, hl, hln⟩ := hmem
  have heq := allLabels_name_inj l (hconf l hl) lab hlab hln
  exact hnot (heq ▸ hl)

theorem foldl_preserve {α β : Type} {f : β → α → β} {P : β → Prop} :
    ∀ {l : List α} {b : β}, P b → (∀ s x, P s → P (f s x)) → P (l.foldl f b) := by
  intro l
  induction l with
  | nil => intro b hb _; exact hb
  | cons x t ih =>
    intro b hb hstep
    exact ih (hstep b x hb) hstep

/-! ## Branch evaluation lemmas for the run model -/

theorem runModel_eq_safeExit {inp : RunInput} {initialLabels : List String}
    (h1 : inp.payloadIsIssue = true) (h2 : inp.prLookupSucceeds = false) :
    runModel inp initialLabels = ⟨0, false, initialLabels, none, false⟩ := by
  unfold runModel
  rw [if_pos (by rw [h1, h2]; rfl)]

theorem runModel_eq_noOwners {inp : RunInput} {initialLabels : List String}
    (h1 : (inp.payloadIsIssue && !inp.prLookupSucceeds) = false)
    (h2 : getCodeOwners inp.changedFiles inp.codeowners = []) :
    runModel inp initialLabels = ⟨0, false, initialLabels, none, false⟩ := by
  unfold runModel
  rw [if_neg (by rw [h1]; simp)]
  simp only [h2, List.length_nil]
  rfl

theorem runModel_eq_notApproved {inp : RunInput} {initialLabels : List String}
    (h1 : (inp.payloadIsIssue && !inp.prLookupSucceeds) = false)
    (h2 : getCodeOwners inp.changedFiles inp.codeowners ≠ [])
    (h3 : isApproved inp.comments inp.reviews inp.prAuthor inp.codeowners
      (approverOwners (getCodeOwners inp.changedFiles inp.codeowners) inp.prAuthor)
      inp.changedFiles = none) :
    runModel inp initialLabels =
      ⟨1, false, applySetLabels initialLabels [needsLgtmLabel],
        some ([needsLgtmLabel].map Label.name), false⟩ := by
  unfold runModel
  rw [if_neg (by rw [h1]; simp)]
  have hlen : ((getCodeOwners inp.changedFiles inp.codeowners).length == 0) = false := by
    simp [List.length_eq_zero, h2]
  simp only [hlen, Bool.false_eq_true, if_false, h3]

theorem runModel_eq_approved {inp : RunInput} {initialLabels : List String}
    {approvers : List String}
    (h1 : (inp.payloadIsIssue && !inp.prLookupSucceeds) = false)
    (h2 : getCodeOwners inp.changedFiles inp.codeowners ≠ [])
    (h3 : isApproved inp.comments inp.reviews inp.prAuthor inp.codeowners
      (approverOwners (getCodeOwners inp.changedFiles inp.codeowners) inp.prAuthor)
      inp.changedFiles = some approvers) :
    runModel inp initialLabels =
      runApproved inp initialLabels
        (approverOwners (getCodeOwners inp.changedFiles inp.codeowners) inp.prAuthor) := by
  unfold runModel
  rw [if_neg (by rw [h1]; simp)]
  have hlen : ((getCodeOwners inp.changedFiles inp.codeowners).length == 0) = false := by
    simp [List.length_eq_zero, h2]
  simp only [hlen, Bool.false_eq_true, if_false, h3]

/-- Invariant of the catch-handler loop state: configs stay inside the
fixed vocabulary, never contain `needs-lgtm`, the attached labels are the
result of a `setLabels` with exactly these configs, and the recorded
target is their name list. -/
def LoopInv (st : List Label × List String × Option (List String)) : Prop :=
  (∀ l ∈ st.1, l ∈ allLabels) ∧ needsLgtmLabel ∉ st.1 ∧
  (∃ a, st.2.1 = applySetLabels a st.1) ∧ st.2.2 = some (st.1.map Label.name)

theorem workflowLabelStep_preserve :
    ∀ st file, LoopInv st → LoopInv (workflowLabelStep st file) := by
  intro st file h
  unfold workflowLabelStep
  by_cases hwf : strContains file ".github/workflows" = true
  · rw [if_pos hwf]
    obtain ⟨hconf, hnl, ⟨a, ha⟩, ht⟩ := h
    refine ⟨?_, ?_, ⟨st.2.1, rfl⟩, rfl⟩
    · intro l hl
      rcases List.mem_append.mp hl with hl | hl
      · exact hconf l hl
      · rw [List.mem_singleton] at hl
        subst hl
        decide
    · intro hmem
      rcases List.mem_append.mp hmem with hm | hm
      · exact hnl hm
      · rw [List.mem_singleton] at hm
        exact absurd hm (by decide)
  · rw [if_neg hwf]
    exact h

theorem workflowLabelStep_nmm_mem :
    ∀ st file, needsManualMergeLabel ∈ st.1 →
      needsManualMergeLabel ∈ (workflowLabelStep st file).1 := by
  intro st file h
  unfold workflowLabelStep
  by_cases hwf : strContains file ".github/workflows" = true
  · rw [if_pos hwf]
    exact List.mem_append_left _ h
  · rw [if_neg hwf]
    exact h

theorem foldl_workflow_nmm :
    ∀ {files : List String} {st : List Label × List String × Option (List String)},
      (∃ f ∈ files, strContains f ".github/workflows" = true) →
      needsManualMergeLabel ∈ (files.foldl workflowLabelStep st).1 := by
  intro files
  induction files with
  | nil =>
    rintro st ⟨f, hf, -⟩
    cases hf
  | cons f t ih =>
    rintro st ⟨g, hg, hgwf⟩
    rw [List.foldl_cons]
    by_cases hwf : strContains f ".github/workflows" = true
    · have hmem : needsManualMergeLabel ∈ (workflowLabelStep st f).1 := by
        unfold workflowLabelStep
        rw [if_pos hwf]
        exact List.mem_append_right _ (List.mem_singleton.mpr rfl)
      exact foldl_preserve (P := fun st => needsManualMergeLabel ∈ st.1) hmem
        (fun s x hs => workflowLabelStep_nmm_mem s x hs)
    · rcases List.mem_cons.mp hg with rfl | hgt
      · exact absurd hgwf hwf
      · exact ih ⟨g, hgt, hgwf⟩

/-- C5.  Whenever a run performs label reconciliation (its last
`setLabels` call has target name list `target`), the attached labels
afterwards agree with `target` on the whole five-name vocabulary — every
vocabulary label outside the target was removed — and `needs-lgtm` and
`merge-ready` are never both attached at the end of a run. -/
theorem run_labels_reconciled (inp : RunInput) (initialLabels : List String)
    (target : List String)
    (h : (runModel inp initialLabels).lastLabelTarget = some target) :
    (∀ n ∈ labelVocabulary,
      (n ∈ (runModel inp initialLabels).attachedLabels ↔ n ∈ target)) ∧
    ¬("needs-lgtm" ∈ (runModel inp initialLabels).attachedLabels ∧
      "merge-ready" ∈ (runModel inp initialLabels).attachedLabels) := by
  by_cases h1 : (inp.payloadIsIssue && !inp.prLookupSucceeds) = true
  · obtain ⟨hp, hl⟩ := Bool.and_eq_true_iff.mp h1
    rw [Bool.not_eq_true'] at hl
    rw [runModel_eq_safeExit hp hl] at h
    cases h
  · have h1f : (inp.payloadIsIssue && !inp.prLookupSucceeds) = false :=
      Bool.eq_false_iff.mpr h1
    by_cases h2 : getCodeOwners inp.changedFiles inp.codeowners = []
    · rw [runModel_eq_noOwners h1f h2] at h
      cases h
    · cases happ : isApproved inp.comments inp.reviews inp.prAuthor inp.codeowners
          (approverOwners (getCodeOwners inp.changedFiles inp.codeowners) inp.prAuthor)
          inp.changedFiles with
      | none =>
        rw [runModel_eq_notApproved h1f h2 happ] at h ⊢
        replace h : some ([needsLgtmLabel].map Label.name) = some target := h
        obtain rfl := (Option.some.inj h).symm
        constructor
        · intro n hn
          exact mem_applySetLabels_name (by decide) hn
        · rintro ⟨-, hmr⟩
          have := (mem_applySetLabels_name (by decide) (by decide)).mp hmr
          exact absurd this (by decide)
      | some A =>
        rw [runModel_eq_approved h1f h2 happ] at h ⊢
        unfold runApproved at h ⊢
        by_cases hmc : hasMergeCommand inp.comments inp.reviews
            (approverOwners (getCodeOwners inp.changedFiles inp.codeowners) inp.prAuthor)
            inp.prAuthor = true
        · rw [if_neg (by rw [hmc]; simp)] at h ⊢
          unfold runGated at h ⊢
          by_cases hg : inp.checkSuiteGreen = true
          · rw [if_neg (by rw [hg]; simp)] at h ⊢
            by_cases hm : inp.mergeSucceeds = true
            · rw [if_pos hm] at h ⊢
              replace h : some ([lgtmLabel, mergeReadyLabel].map Label.name) = some target := h
              obtain rfl := (Option.some.inj h).symm
              constructor
              · intro n hn
                exact mem_applySetLabels_name (by decide) hn
              · rintro ⟨hnl, -⟩
                have := (mem_applySetLabels_name (by decide) (by decide)).mp hnl
                exact absurd this (by decide)
            · rw [if_neg hm] at h ⊢
              have hinit : LoopInv ([lgtmLabel, mergeReadyLabel],
                  applySetLabels initialLabels [lgtmLabel, mergeReadyLabel],
                  some ([lgtmLabel, mergeReadyLabel].map Label.name)) := by
                refine ⟨?_, ?_, ⟨initialLabels, rfl⟩, rfl⟩
                · show ∀ l ∈ [lgtmLabel, mergeReadyLabel], l ∈ allLabels
                  decide
                · show needsLgtmLabel ∉ [lgtmLabel, mergeReadyLabel]
                  decide
              have hinv : LoopInv (inp.changedFiles.foldl workflowLabelStep
                  ([lgtmLabel, mergeReadyLabel],
                   applySetLabels initialLabels [lgtmLabel, mergeReadyLabel],
                   some ([lgtmLabel, mergeReadyLabel].map Label.name))) :=
                foldl_preserve hinit (fun s x hs => workflowLabelStep_preserve s x hs)
              set final := inp.changedFiles.foldl workflowLabelStep
                  ([lgtmLabel, mergeReadyLabel],
                   applySetLabels initialLabels [lgtmLabel, mergeReadyLabel],
                   some ([lgtmLabel, mergeReadyLabel].map Label.name)) with hfinal
              obtain ⟨hconf, hnl, ⟨a, hatt⟩, htgt⟩ := hinv
              replace h : final.2.2 = some target := h
              rw [htgt] at h
              obtain rfl := (Option.some.inj h).symm
              constructor
              · intro n hn
                show n ∈ final.2.1 ↔ _
                rw [hatt]
                exact mem_applySetLabels_name hconf hn
              · rintro ⟨hnlmem, -⟩
                replace hnlmem : "needs-lgtm" ∈ final.2.1 := hnlmem
                rw [hatt] at hnlmem
                have := (mem_applySetLabels_name hconf (by decide)).mp hnlmem
                exact name_not_mem_of_label_not_mem hconf (by decide) hnl this
          · rw [if_pos (by rw [Bool.eq_false_iff.mpr hg]; rfl)] at h ⊢
            replace h : some ([lgtmLabel, mergeReadyLabel].map Label.name) = some target := h
            obtain rfl := (Option.some.inj h).symm
            constructor
            · intro n hn
              exact mem_applySetLabels_name (by decide) hn
            · rintro ⟨hnl, -⟩
              have := (mem_applySetLabels_name (by decide) (by decide)).mp hnl
              exact absurd this (by decide)
        · rw [if_pos (by rw [Bool.eq_false_iff.mpr hmc]; rfl)] at h ⊢
          replace h : some ([lgtmLabel, needsMergeLabel].map Label.name) = some target := h
          obtain rfl := (Option.some.inj h).symm
          constructor
          · intro n hn
            exact mem_applySetLabels_name (by decide) hn
          · rintro ⟨hnl, -⟩
            have := (mem_applySetLabels_name (by decide) (by decide)).mp hnl
            exact absurd this (by decide)

/-- Witness for C5: a concrete blocked run whose reconciliation target is
`needs-lgtm`. -/
theorem run_labels_reconciled_witness :
    (runModel ⟨"alice", false, true, ["/README.md"],
        ⟨fun p => if p = "README.md" then ["@alice", "@bob"] else []⟩,
        [], [], true, true⟩ ["merge-ready", "custom"]).lastLabelTarget =
      some ["needs-lgtm"] ∧
    ((∀ n ∈ labelVocabulary,
      (n ∈ (runModel ⟨"alice", false, true, ["/README.md"],
          ⟨fun p => if p = "README.md" then ["@alice", "@bob"] else []⟩,
          [], [], true, true⟩ ["merge-ready", "custom"]).attachedLabels ↔
        n ∈ ["needs-lgtm"])) ∧
    ¬("needs-lgtm" ∈ (runModel ⟨"alice", false, true, ["/README.md"],
          ⟨fun p => if p = "README.md" then ["@alice", "@bob"] else []⟩,
          [], [], true, true⟩ ["merge-ready", "custom"]).attachedLabels ∧
      "merge-ready" ∈ (runModel ⟨"alice", false, true, ["/README.md"],
          ⟨fun p => if p = "README.md" then ["@alice", "@bob"] else []⟩,
          [], [], true, true⟩ ["merge-ready", "custom"]).attachedLabels)) :=
  ⟨by decide,
   run_labels_reconciled ⟨"alice", false, true, ["/README.md"],
     ⟨fun p => if p = "README.md" then ["@alice", "@bob"] else []⟩,
     [], [], true, true⟩ ["merge-ready", "custom"] ["needs-lgtm"] (by decide)⟩

/-! ## The sole-owner (open approval) configuration -/

theorem isApproved_eq_none_of_no_approvers {comments : List Comment}
    {reviews : List Review} {prAuthor : String} {co : Codeowners}
    {owners changedFiles : List String}
    (hA : getApprovers comments reviews owners prAuthor = []) :
    isApproved comments reviews prAuthor co owners changedFiles = none := by
  unfold isApproved
  simp [hA]

theorem isApproved_eq_some_of_no_missing {comments : List Comment}
    {reviews : List Review} {prAuthor : String} {co : Codeowners}
    {owners changedFiles : List String}
    (hA : getApprovers comments reviews owners prAuthor ≠ [])
    (hmiss : getCodeOwners
      (unapprovedFilesAfter (getApprovers comments reviews owners prAuthor)
        prAuthor co changedFiles) co = []) :
    isApproved comments reviews prAuthor co owners changedFiles =
      some (getApprovers comments reviews owners prAuthor) := by
  unfold isApproved
  have hlen : ((getApprovers comments reviews owners prAuthor).length == 0) = false := by
    simp [List.length_eq_zero, hA]
  simp only [hlen, Bool.false_eq_true, if_false]
  have hcond : (decide (0 < (getCodeOwners
      (unapprovedFilesAfter (getApprovers comments reviews owners prAuthor)
        prAuthor co changedFiles) co).length) &&
      decide (0 < (unapprovedFilesAfter (getApprovers comments reviews owners prAuthor)
        prAuthor co changedFiles).length)) = false := by
    simp [hmiss]
  simp only [hcond, Bool.false_eq_true, if_false]

/-- When the PR author is the sole owner of the changed files, the
residual unapproved files can have no declared owner at all, so the
owner-side blocking condition is vacuous. -/
theorem getCodeOwners_unapproved_nil {co : Codeowners} {changedFiles : List String}
    {prAuthor : String} {A : List String}
    (h : approverOwners (getCodeOwners changedFiles co) prAuthor = []) :
    getCodeOwners (unapprovedFilesAfter A prAuthor co changedFiles) co = [] := by
  by_contra hne
  obtain ⟨o, ho⟩ := List.exists_mem_of_ne_nil _ hne
  obtain ⟨hs, f, hf, hof⟩ := mem_getCodeOwners.mp ho
  obtain ⟨hfc, -, hnauth⟩ := mem_unapprovedFilesAfter.mp hf
  have hoc : o ∈ getCodeOwners changedFiles co := mem_getCodeOwners.mpr ⟨hs, f, hfc, hof⟩
  unfold approverOwners at h
  have hall := List.filter_eq_nil_iff.mp h o hoc
  simp only [decide_eq_true_eq, not_not] at hall
  exact hnauth (hall ▸ hof)

/-- C2 (amended).  When `approverOwners` is empty (the PR author is the
sole owner of the changed files), the owner-membership requirement on
signals is waived — any non-author user's `/lgtm` and `/merge` count, and
residual ownership never blocks — but the approval and merge-command
signals themselves are still required: the run merges exactly when some
valid approval and some valid merge command exist, the check suite is
green and the merge call succeeds. -/
theorem soleOwner_open_approval (inp : RunInput) (initialLabels : List String)
    (h1 : (inp.payloadIsIssue && !inp.prLookupSucceeds) = false)
    (h2 : getCodeOwners inp.changedFiles inp.codeowners ≠ [])
    (h3 : approverOwners (getCodeOwners inp.changedFiles inp.codeowners) inp.prAuthor = []) :
    (runModel inp initialLabels).merged = true ↔
      (getApprovers inp.comments inp.reviews [] inp.prAuthor ≠ [] ∧
       hasMergeCommand inp.comments inp.reviews [] inp.prAuthor = true ∧
       inp.checkSuiteGreen = true ∧ inp.mergeSucceeds = true) := by
  by_cases hA : getApprovers inp.comments inp.reviews [] inp.prAuthor = []
  · have happ : isApproved inp.comments inp.reviews inp.prAuthor inp.codeowners
        (approverOwners (getCodeOwners inp.changedFiles inp.codeowners) inp.prAuthor)
        inp.changedFiles = none := by
      rw [h3]
      exact isApproved_eq_none_of_no_approvers hA
    rw [runModel_eq_notApproved h1 h2 happ]
    show false = true ↔ _
    simp [hA]
  · have happ : isApproved inp.comments inp.reviews inp.prAuthor inp.codeowners
        (approverOwners (getCodeOwners inp.changedFiles inp.codeowners) inp.prAuthor)
        inp.changedFiles =
        some (getApprovers inp.comments inp.reviews [] inp.prAuthor) := by
      rw [h3]
      exact isApproved_eq_some_of_no_missing hA
        (getCodeOwners_unapproved_nil h3)
    rw [runModel_eq_approved h1 h2 happ, h3]
    unfold runApproved
    by_cases hmc : hasMergeCommand inp.comments inp.reviews [] inp.prAuthor = true
    · rw [if_neg (by rw [hmc]; simp)]
      unfold runGated
      by_cases hg : inp.checkSuiteGreen = true
      · rw [if_neg (by rw [hg]; simp)]
        by_cases hm : inp.mergeSucceeds = true
        · rw [if_pos hm]
          show true = true ↔ _
          simp [hA, hmc, hg, hm]
        · rw [if_neg hm]
          show false = true ↔ _
          simp [Bool.eq_false_iff.mpr hm]
      · rw [if_pos (by rw [Bool.eq_false_iff.mpr hg]; rfl)]
        show false = true ↔ _
        simp [Bool.eq_false_iff.mpr hg]
    · rw [if_pos (by rw [Bool.eq_false_iff.mpr hmc]; rfl)]
      show false = true ↔ _
      simp [Bool.eq_false_iff.mpr hmc]

/-- A PR by `alice`, its sole owner, with no comments at all; checks are
green and the merge call would succeed. -/
def claim2Input : RunInput :=
  ⟨"alice", false, true, ["/README.md"],
   ⟨fun p => if p = "README.md" then ["@alice"] else []⟩, [], [], true, true⟩

/-- Counterexample to C2 as stated: with `approverOwners` empty and the
check suite green, the run still fails (exit 1, `needs-lgtm`) because no
`/lgtm` signal exists — the approval requirement is not waived. -/
theorem claim2_counterexample :
    approverOwners (getCodeOwners claim2Input.changedFiles claim2Input.codeowners)
      claim2Input.prAuthor = [] ∧
    claim2Input.checkSuiteGreen = true ∧
    claim2Input.mergeSucceeds = true ∧
    (runModel claim2Input []).merged = false ∧
    (runModel claim2Input []).exitCode = 1 ∧
    (runModel claim2Input []).lastLabelTarget = some ["needs-lgtm"] := by
  decide

/-- Same sole-owner PR, but a non-owner (`bob`) supplied `/lgtm` and
`/merge`. -/
def claim2WitnessInput : RunInput :=
  ⟨"alice", false, true, ["/README.md"],
   ⟨fun p => if p = "README.md" then ["@alice"] else []⟩,
   [⟨"bob", "/lgtm"⟩, ⟨"bob", "/merge"⟩], [], true, true⟩

/-- Witness for the amended C2: any user's signals suffice and the merge
goes through. -/
theorem soleOwner_open_approval_witness :
    (claim2WitnessInput.payloadIsIssue && !claim2WitnessInput.prLookupSucceeds) = false ∧
    getCodeOwners claim2WitnessInput.changedFiles claim2WitnessInput.codeowners ≠ [] ∧
    approverOwners (getCodeOwners claim2WitnessInput.changedFiles
      claim2WitnessInput.codeowners) claim2WitnessInput.prAuthor = [] ∧
    ((runModel claim2WitnessInput []).merged = true ↔
      (getApprovers claim2WitnessInput.comments claim2WitnessInput.reviews []
        claim2WitnessInput.prAuthor ≠ [] ∧
       hasMergeCommand claim2WitnessInput.comments claim2WitnessInput.reviews []
        claim2WitnessInput.prAuthor = true ∧
       claim2WitnessInput.checkSuiteGreen = true ∧
       claim2WitnessInput.mergeSucceeds = true)) :=
  ⟨by decide, by decide, by decide,
   soleOwner_open_approval claim2WitnessInput [] (by decide) (by decide) (by decide)⟩

/-! ## Merge failure on workflow-touching changes -/

/-- C3 (amended).  When the merge call fails and the change set touches
CI workflow configuration, the run does attach `needs-manual-merge` — and
then still terminates as a hard failure, with the same
`setFailed("Failed to merge")` + exit 1 signal as any unexpected merge
error (the early `process.exit(0)` is commented out in the source). -/
theorem mergeFailure_workflow_manual_label (inp : RunInput) (initialLabels : List String)
    (A : List String)
    (h1 : (inp.payloadIsIssue && !inp.prLookupSucceeds) = false)
    (h2 : getCodeOwners inp.changedFiles inp.codeowners ≠ [])
    (h3 : isApproved inp.comments inp.reviews inp.prAuthor inp.codeowners
      (approverOwners (getCodeOwners inp.changedFiles inp.codeowners) inp.prAuthor)
      inp.changedFiles = some A)
    (h4 : hasMergeCommand inp.comments inp.reviews
      (approverOwners (getCodeOwners inp.changedFiles inp.codeowners) inp.prAuthor)
      inp.prAuthor = true)
    (h5 : inp.checkSuiteGreen = true)
    (h6 : inp.mergeSucceeds = false)
    (h7 : ∃ f ∈ inp.changedFiles, strContains f ".github/workflows" = true) :
    "needs-manual-merge" ∈ (runModel inp initialLabels).attachedLabels ∧
    (runModel inp initialLabels).exitCode = 1 ∧
    (runModel inp initialLabels).setFailedMerge = true := by
  rw [runModel_eq_approved h1 h2 h3]
  unfold runApproved
  rw [if_neg (by rw [h4]; simp)]
  unfold runGated
  rw [if_neg (by rw [h5]; simp), if_neg (by rw [h6]; simp)]
  refine ⟨?_, rfl, rfl⟩
  have hinit : LoopInv ([lgtmLabel, mergeReadyLabel],
      applySetLabels initialLabels [lgtmLabel, mergeReadyLabel],
      some ([lgtmLabel, mergeReadyLabel].map Label.name)) := by
    refine ⟨?_, ?_, ⟨initialLabels, rfl⟩, rfl⟩
    · show ∀ l ∈ [lgtmLabel, mergeReadyLabel], l ∈ allLabels
      decide
    · show needsLgtmLabel ∉ [lgtmLabel, mergeReadyLabel]
      decide
  have hinv : LoopInv (inp.changedFiles.foldl workflowLabelStep
      ([lgtmLabel, mergeReadyLabel],
       applySetLabels initialLabels [lgtmLabel, mergeReadyLabel],
       some ([lgtmLabel, mergeReadyLabel].map Label.name))) :=
    foldl_preserve hinit (fun s x hs => workflowLabelStep_preserve s x hs)
  set final := inp.changedFiles.foldl workflowLabelStep
      ([lgtmLabel, mergeReadyLabel],
       applySetLabels initialLabels [lgtmLabel, mergeReadyLabel],
       some ([lgtmLabel, mergeReadyLabel].map Label.name)) with hfinal
  obtain ⟨hconf, -, ⟨a, hatt⟩, -⟩ := hinv
  have hnmm : needsManualMergeLabel ∈ final.1 := foldl_workflow_nmm h7
  show "needs-manual-merge" ∈ final.2.1
  rw [hatt, mem_applySetLabels_name hconf (by decide)]
  exact List.mem_map_of_mem _ hnmm

/-- A PR by `bob` touching a workflow file owned by `alice`, approved and
merge-requested by `alice`, checks green, merge call fails. -/
def claim3Input : RunInput :=
  ⟨"bob", false, true, ["/.github/workflows/ci.yml"],
   ⟨fun p => if p = ".github/workflows/ci.yml" then ["@alice"] else []⟩,
   [⟨"alice", "/lgtm"⟩, ⟨"alice", "/merge"⟩], [], true, false⟩

/-- Counterexample to C3 as stated: on a workflow-touching merge failure
the run attaches the label but does NOT stop short of the hard-error
signal — it still runs `setFailed("Failed to merge")` and exits 1. -/
theorem claim3_counterexample :
    claim3Input.mergeSucceeds = false ∧
    (∃ f ∈ claim3Input.changedFiles, strContains f ".github/workflows" = true) ∧
    "needs-manual-merge" ∈ (runModel claim3Input []).attachedLabels ∧
    (runModel claim3Input []).exitCode = 1 ∧
    (runModel claim3Input []).setFailedMerge = true := by
  decide

/-- Witness for the amended C3 at the concrete workflow-touching input. -/
theorem mergeFailure_workflow_manual_label_witness :
    isApproved claim3Input.comments claim3Input.reviews claim3Input.prAuthor
      claim3Input.codeowners
      (approverOwners (getCodeOwners claim3Input.changedFiles claim3Input.codeowners)
        claim3Input.prAuthor) claim3Input.changedFiles = some ["alice"] ∧
    ("needs-manual-merge" ∈ (runModel claim3Input []).attachedLabels ∧
     (runModel claim3Input []).exitCode = 1 ∧
     (runModel claim3Input []).setFailedMerge = true) :=
  ⟨by decide,
   mergeFailure_workflow_manual_label claim3Input [] ["alice"] (by decide) (by decide)
     (by decide) (by decide) (by decide) (by decide)
     ⟨"/.github/workflows/ci.yml", by decide, by decide⟩⟩

/-! ## Exit status -/

/-- C10 (amended).  The run exits 0 exactly when the merge succeeded, or
the changed files have no declared owner (the "no owners" short-circuit),
or the invocation came from an issue payload whose pull-request lookup
failed (the "exiting safely" path) — every other outcome exits 1. -/
theorem exit_zero_iff (inp : RunInput) (initialLabels : List String) :
    (runModel inp initialLabels).exitCode = 0 ↔
      ((runModel inp initialLabels).merged = true ∨
       getCodeOwners inp.changedFiles inp.codeowners = [] ∨
       (inp.payloadIsIssue = true ∧ inp.prLookupSucceeds = false)) := by
  by_cases h1 : (inp.payloadIsIssue && !inp.prLookupSucceeds) = true
  · obtain ⟨hp, hl⟩ := Bool.and_eq_true_iff.mp h1
    rw [Bool.not_eq_true'] at hl
    rw [runModel_eq_safeExit hp hl]
    simp [hp, hl]
  · have h1f : (inp.payloadIsIssue && !inp.prLookupSucceeds) = false :=
      Bool.eq_false_iff.mpr h1
    have hno3 : ¬(inp.payloadIsIssue = true ∧ inp.prLookupSucceeds = false) := by
      rintro ⟨hp, hl⟩
      rw [hp, hl] at h1f
      simp at h1f
    by_cases h2 : getCodeOwners inp.changedFiles inp.codeowners = []
    · rw [runModel_eq_noOwners h1f h2]
      simp [h2]
    · cases happ : isApproved inp.comments inp.reviews inp.prAuthor inp.codeowners
          (approverOwners (getCodeOwners inp.changedFiles inp.codeowners) inp.prAuthor)
          inp.changedFiles with
      | none =>
        rw [runModel_eq_notApproved h1f h2 happ]
        simp [h2, hno3]
      | some A =>
        rw [runModel_eq_approved h1f h2 happ]
        unfold runApproved
        by_cases hmc : hasMergeCommand inp.comments inp.reviews
            (approverOwners (getCodeOwners inp.changedFiles inp.codeowners) inp.prAuthor)
            inp.prAuthor = true
        · rw [if_neg (by rw [hmc]; simp)]
          unfold runGated
          by_cases hg : inp.checkSuiteGreen = true
          · rw [if_neg (by rw [hg]; simp)]
            by_cases hm : inp.mergeSucceeds = true
            · rw [if_pos hm]
              simp
            · rw [if_neg hm]
              simp [h2, hno3]
          · rw [if_pos (by rw [Bool.eq_false_iff.mpr hg]; rfl)]
            simp [h2, hno3]
        · rw [if_pos (by rw [Bool.eq_false_iff.mpr hmc]; rfl)]
          simp [h2, hno3]

/-- An invocation from an issue payload whose pull-request lookup fails,
over changed files that do have declared owners. -/
def claim10Input : RunInput :=
  ⟨"alice", true, false, ["/README.md"],
   ⟨fun p => if p = "README.md" then ["@alice"] else []⟩, [], [], true, true⟩

/-- Counterexample to C10 as stated: the "exiting safely" path ends the
process with exit status 0 although nothing was merged and the changed
files do have declared owners (so this is not the no-owners
short-circuit, whose label state it also lacks — no eligibility
evaluation happened). -/
theorem claim10_counterexample :
    (runModel claim10Input []).exitCode = 0 ∧
    (runModel claim10Input []).merged = false ∧
    getCodeOwners claim10Input.changedFiles claim10Input.codeowners ≠ [] ∧
    (runModel claim10Input []).lastLabelTarget = none := by
  decide

/-- Witness for C4 at a concrete trace: a single poll showing a foreign
run still in progress keeps the gate polling (`none` on trace
exhaustion, no internal give-up). -/
theorem isCheckSuiteGreen_spec_witness :
    (∀ o ∈ ([[(⟨"other", "in_progress", "x"⟩ : CheckRun)]] : List (List CheckRun)),
      pendingObs o "job") ∧
    (isCheckSuiteGreen "job" [[⟨"other", "in_progress", "x"⟩]]).1 = none := by
  have hpend : ∀ o ∈ ([[(⟨"other", "in_progress", "x"⟩ : CheckRun)]] : List (List CheckRun)),
      pendingObs o "job" := by
    intro o ho
    rw [List.mem_singleton] at ho
    subst ho
    constructor
    · rintro ⟨r, hr, hst, -, -⟩
      rw [List.mem_singleton] at hr
      subst hr
      exact absurd hst (by decide)
    · exact ⟨⟨"other", "in_progress", "x"⟩, List.mem_singleton.mpr rfl, rfl, by decide⟩
  exact ⟨hpend, (isCheckSuiteGreen_spec "job" _).2.2.2 hpend⟩

end AutoMergeBot
